import Mathlib

/-!
Shallow embedding of the token-bounded summarization core of the
weiboChatlog repository: the message chunker (`src/summarizer/chunker.py`),
the token estimator fallback (`src/summarizer/tokenizer.py`), the two-tier
summary cache (`src/summarizer/cache.py` with `src/utils/redis_client.py`),
the recursive summarizer (`src/summarizer/recursive_sum.py`), and the
time-window resolver (`chatbot/summarizer/recursive_sum.py`).

Python strings are modelled as lists of Unicode code points; machine
integers do not overflow in any of the embedded code paths, so `Nat`/`Int`
are used directly.  The external tokenizer (`tiktoken`) and the external
summarization call are modelled as function parameters `tm` and `ai`; the
in-repository fallback estimator `estimate_chinese_tokens` is embedded
concretely and used for concrete evaluations.
-/

set_option linter.unusedVariables false
set_option linter.unusedSectionVars false

namespace WeiboChatlog

/-- Python strings, as sequences of Unicode code points. -/
abbrev PyStr := List Char

/-- A chat-message dictionary as the summarizer core reads it: the
`content` text, the timestamp-like `time` value, the author name, and one
opaque field standing for all remaining dictionary entries (which the core
copies around but never inspects). -/
structure Msg where
  content : PyStr
  time : Nat
  author : PyStr
  meta : Nat
deriving DecidableEq, Repr

/-- Characters matched by the tokenizer's `chinese_pattern`,
the regex character class from U+4E00 to U+9FFF. -/
def isChineseChar (c : Char) : Bool :=
  decide (0x4e00 ≤ c.toNat ∧ c.toNat ≤ 0x9fff)

/-- `TokenManager.estimate_chinese_tokens`: CJK characters weigh 1.5 tokens,
all others 0.25, each product truncated to an integer exactly as Python's
`int(c * 1.5)` and `int(o * 0.25)` do (both float products are computed
exactly for realistic lengths, so truncation is `3*c/2` and `o/4`). -/
def estimate_chinese_tokens (t : PyStr) : Nat :=
  let chinese := (t.filter isChineseChar).length
  let other := t.length - chinese
  3 * chinese / 2 + other / 4

/-- The digit-string part of Python `int(s)`: all characters must be ASCII
decimal digits and there must be at least one. -/
def digitsVal (l : PyStr) : Option Nat :=
  if l = [] then none
  else if l.all Char.isDigit then
    some (l.foldl (fun a c => 10 * a + (c.toNat - 48)) 0)
  else none

/-- Python `int(s)` restricted to an optional ASCII sign followed by decimal
digits; the resolver only ever receives such magnitudes, and anything else
raises `ValueError` (modelled as `none`). -/
def pyInt : PyStr → Option Int
  | '+' :: rest => (digitsVal rest).map Int.ofNat
  | '-' :: rest => (digitsVal rest).map (fun n => -(Int.ofNat n))
  | l => (digitsVal l).map Int.ofNat

/-- `RecursiveSummarizer._parse_time_range`
(`chatbot/summarizer/recursive_sum.py`): the last character is the unit
(lower-cased), the rest is the integer magnitude; `d` is capped at 1 day,
`h` at 24 hours, `m`/`w` coerce to 1 day, any other unit falls through to a
1-hour default; `IndexError` (empty string) and `ValueError` (non-integer
magnitude) yield `None`.  The returned `timedelta` is measured in hours. -/
def parse_time_range (s : PyStr) : Option Int :=
  match s.getLast? with
  | none => none
  | some u =>
    let unit := u.toLower
    match pyInt s.dropLast with
    | none => none
    | some v =>
      if unit = 'd' then some (24 * (if v > 1 then 1 else v))
      else if unit = 'h' then some (if v > 24 then 24 else v)
      else if unit = 'm' ∨ unit = 'w' then some 24
      else some 1

/-- C5: every duration the time-window resolver returns is at most 24
hours; in particular `parse("25h")` is capped to 24 hours and `parse("2d")`
to 1 day (24 hours). -/
theorem parse_time_range_capped :
    (∀ (s : PyStr) (d : Int), parse_time_range s = some d → d ≤ 24) ∧
    parse_time_range "25h".toList = some 24 ∧
    parse_time_range "2d".toList = some 24 := by
  refine ⟨?_, by decide, by decide⟩
  intro s d h
  unfold parse_time_range at h
  rcases hg : s.getLast? with _ | u
  · rw [hg] at h; exact absurd h (by simp)
  · rw [hg] at h
    rcases hv : pyInt s.dropLast with _ | v
    · rw [hv] at h; exact absurd h (by simp)
    · rw [hv] at h
      simp only at h
      split at h
      · rcases h with ⟨rfl⟩; split <;> omega
      · split at h
        · rcases h with ⟨rfl⟩; split <;> omega
        · split at h <;> rcases h with ⟨rfl⟩ <;> omega

/-- Witness for C5 at the concrete input `"1h"`. -/
theorem parse_time_range_capped_witness : (1 : Int) ≤ 24 :=
  parse_time_range_capped.1 "1h".toList 1 (by decide)

/-- C6 counterexample: `"5x"` has a well-formed integer magnitude but an
unknown unit character, yet the resolver returns a default 1-hour duration
instead of `invalid` (`None`). -/
theorem parse_time_range_unknown_unit_default :
    parse_time_range "5x".toList = some 1 ∧
    parse_time_range "5x".toList ≠ none := by
  constructor <;> decide

/-- C6 amended: the empty string and a non-integer magnitude yield
`invalid` (`None`), but an integer magnitude followed by an unknown unit
character yields a default 1-hour duration rather than `invalid`. -/
theorem parse_time_range_malformed :
    parse_time_range [] = none ∧
    (∀ (mag : PyStr) (c : Char), pyInt mag = none →
      parse_time_range (mag ++ [c]) = none) ∧
    (∀ (mag : PyStr) (c : Char) (v : Int), pyInt mag = some v →
      c.toLower ≠ 'd' → c.toLower ≠ 'h' → c.toLower ≠ 'm' → c.toLower ≠ 'w' →
      parse_time_range (mag ++ [c]) = some 1) := by
  refine ⟨by decide, ?_, ?_⟩
  · intro mag c hmag
    unfold parse_time_range
    rw [List.getLast?_concat, List.dropLast_concat, hmag]
  · intro mag c v hmag hd hh hm hw
    unfold parse_time_range
    rw [List.getLast?_concat, List.dropLast_concat, hmag]
    simp [hd, hh, hm, hw]

/-- Witness for the amended C6 at the concrete input `"ab" ++ "c"`. -/
theorem parse_time_range_malformed_witness :
    parse_time_range ("ab".toList ++ ['c']) = none :=
  parse_time_range_malformed.2.1 "ab".toList 'c' (by decide)

/-! ## The message chunker (`src/summarizer/chunker.py`) -/

/-- A message value as the chunker receives it: either a well-formed
message dictionary, or a malformed entry (not a dictionary) on which
`message.get` raises and so aborts the surrounding `try` block. -/
inductive PyMsg where
  | good (m : Msg)
  | bad
deriving DecidableEq, Repr

/-- Python `str.split(sep)` for a single-character separator: split at every
occurrence, keeping empty pieces. -/
def splitOnChar (sep : Char) : PyStr → List PyStr
  | [] => [[]]
  | c :: cs =>
    match splitOnChar sep cs with
    | [] => [[]]
    | h :: t => if c = sep then [] :: h :: t else (c :: h) :: t

/-- Python `str.strip()`: remove whitespace from both ends. -/
def pyStrip (s : PyStr) : PyStr :=
  ((s.dropWhile Char.isWhitespace).reverse.dropWhile Char.isWhitespace).reverse

/-- Structural worker for `sliceBy`: the fuel starts at the string length,
which (for a positive slice width) bounds the number of loop iterations. -/
def sliceByAux (n : Nat) : Nat → PyStr → List PyStr
  | 0, _ => []
  | _ + 1, [] => []
  | fuel + 1, c :: cs => ((c :: cs).take n) :: sliceByAux n fuel ((c :: cs).drop n)

/-- The fixed-length last-resort cut
`[part[i:i+n] for i in range(0, len(part), n)]` (slicing by code points);
the source only ever calls it with `n = 100`. -/
def sliceBy (n : Nat) (s : PyStr) : List PyStr :=
  sliceByAux n s.length s

/-- `MessageChunker._split_sentence`: split a long sentence on commas
(full-width commas first normalized to ASCII), re-appending `'，'` to each
stripped piece; a piece over budget is cut into fixed 100-character slices
(the running part is left as is), otherwise pieces are greedily packed. -/
def split_sentence (tm : PyStr → Nat) (sentence : PyStr) (maxTokens : Nat) :
    List PyStr :=
  let pieces := splitOnChar ',' (sentence.map (fun c => if c = '，' then ',' else c))
  let step := fun (acc : List PyStr × PyStr) (p : PyStr) =>
    let parts := acc.1
    let cur := acc.2
    let part := pyStrip p ++ ['，']
    if tm part > maxTokens then (parts ++ sliceBy 100 part, cur)
    else if tm (cur ++ part) > maxTokens then
      ((if cur ≠ [] then parts ++ [cur] else parts), part)
    else (parts, cur ++ part)
  let r := pieces.foldl step ([], [])
  if r.2 ≠ [] then r.1 ++ [r.2] else r.1

/-- `MessageChunker._split_long_message`: split an oversized message on
`'。'` sentence boundaries, skipping whitespace-only sentences; a sentence
over budget is delegated to `_split_sentence` and the running part is
discarded (reset to empty without being flushed, exactly as the source
does); otherwise sentences are greedily packed. -/
def split_long_message (tm : PyStr → Nat) (content : PyStr) (maxTokens : Nat) :
    List PyStr :=
  let sentences := splitOnChar '。' content
  let step := fun (acc : List PyStr × PyStr) (s : PyStr) =>
    let parts := acc.1
    let cur := acc.2
    if pyStrip s = [] then acc
    else
      let sentence := s ++ ['。']
      if tm sentence > maxTokens then
        (parts ++ split_sentence tm sentence maxTokens, [])
      else if tm (cur ++ sentence) > maxTokens then
        ((if cur ≠ [] then parts ++ [cur] else parts), sentence)
      else (parts, cur ++ sentence)
  let r := sentences.foldl step ([], [])
  if r.2 ≠ [] then r.1 ++ [r.2] else r.1

/-- The loop body of `MessageChunker.split_by_tokens`, with the surrounding
`try` modelled by `Except`: a malformed message raises and aborts the whole
loop.  Arguments after the message list: the accumulated `chunks`, the
running `current_chunk`, and `current_tokens`. -/
def splitByTokensAux (tm : PyStr → Nat) (maxTokens : Nat) :
    List PyMsg → List (List PyMsg) → List PyMsg → Nat →
    Except Unit (List (List PyMsg))
  | [], chunks, cur, _ => .ok (if cur ≠ [] then chunks ++ [cur] else chunks)
  | .bad :: _, _, _, _ => .error ()
  | .good m :: rest, chunks, cur, curTok =>
    let t := tm m.content
    if t > maxTokens then
      let chunks1 := if cur ≠ [] then chunks ++ [cur] else chunks
      let parts := split_long_message tm m.content maxTokens
      splitByTokensAux tm maxTokens rest
        (chunks1 ++ parts.map (fun p => [PyMsg.good { m with content := p }])) [] 0
    else if curTok + t > maxTokens then
      splitByTokensAux tm maxTokens rest (chunks ++ [cur]) [.good m] t
    else
      splitByTokensAux tm maxTokens rest chunks (cur ++ [.good m]) (curTok + t)

/-- `MessageChunker.split_by_tokens`: greedy token-bounded chunking, with
oversized messages force-split into fragment copies; the top-level
`except` clause logs and returns `[[]]` — a list holding one empty chunk. -/
def split_by_tokens (tm : PyStr → Nat) (msgs : List PyMsg) (maxTokens : Nat) :
    List (List PyMsg) :=
  match splitByTokensAux tm maxTokens msgs [] [] 0 with
  | .ok cs => cs
  | .error _ => [[]]

/-- Token count of a chunk as the chunker accounts it: the sum of the
estimator over each member message's content. -/
def chunkTokens (tm : PyStr → Nat) (chunk : List PyMsg) : Nat :=
  (chunk.map (fun p => match p with | .good m => tm m.content | .bad => 0)).sum

/-- A chunk that arises from force-splitting a single oversized message of
the input: one fragment of `_split_long_message`, wrapped as a
single-message chunk carrying the originating message's other fields. -/
def forcedChunk (tm : PyStr → Nat) (maxTokens : Nat) (msgs0 : List Msg)
    (C : List PyMsg) : Prop :=
  ∃ m ∈ msgs0, maxTokens < tm m.content ∧
    C ∈ (split_long_message tm m.content maxTokens).map
      (fun p => [PyMsg.good { m with content := p }])

/-- On a list of well-formed messages the chunker's loop never raises. -/
theorem splitByTokensAux_good_ok (tm : PyStr → Nat) (maxTokens : Nat) :
    ∀ (msgs : List Msg) (chunks : List (List PyMsg)) (cur : List PyMsg)
      (curTok : Nat),
    ∃ cs, splitByTokensAux tm maxTokens (msgs.map .good) chunks cur curTok =
      .ok cs := by
  intro msgs
  induction msgs with
  | nil => intro chunks cur curTok; exact ⟨_, rfl⟩
  | cons m rest ih =>
    intro chunks cur curTok
    simp only [List.map_cons, splitByTokensAux]
    split
    · exact ih _ _ _
    · split
      · exact ih _ _ _
      · exact ih _ _ _

/-- If every message fits the budget, the loop's chunks concatenate to the
already-flushed chunks, the running chunk, and the remaining messages. -/
theorem splitByTokensAux_flatten (tm : PyStr → Nat) (maxTokens : Nat) :
    ∀ (msgs : List Msg), (∀ m ∈ msgs, tm m.content ≤ maxTokens) →
    ∀ (chunks : List (List PyMsg)) (cur : List PyMsg) (curTok : Nat) cs,
    splitByTokensAux tm maxTokens (msgs.map .good) chunks cur curTok = .ok cs →
    cs.flatten = chunks.flatten ++ cur ++ msgs.map .good := by
  intro msgs
  induction msgs with
  | nil =>
    intro _ chunks cur curTok cs hcs
    simp only [List.map_nil, splitByTokensAux] at hcs
    rcases hcs with ⟨rfl⟩
    by_cases hc : cur = []
    · subst hc; simp
    · simp [hc]
  | cons m rest ih =>
    intro hfit chunks cur curTok cs hcs
    have hm : tm m.content ≤ maxTokens := hfit m (by simp)
    have hrest : ∀ x ∈ rest, tm x.content ≤ maxTokens :=
      fun x hx => hfit x (by simp [hx])
    simp only [List.map_cons, splitByTokensAux] at hcs
    rw [if_neg (by omega)] at hcs
    by_cases hover : curTok + tm m.content > maxTokens
    · rw [if_pos hover] at hcs
      have := ih hrest (chunks ++ [cur]) [.good m] (tm m.content) cs hcs
      simp only [this, List.flatten_append, List.flatten_cons, List.flatten_nil,
        List.map_cons, List.append_nil, List.append_assoc, List.cons_append,
        List.nil_append]
    · rw [if_neg hover] at hcs
      have := ih hrest chunks (cur ++ [.good m]) (curTok + tm m.content) cs hcs
      simp only [this, List.map_cons, List.append_assoc, List.cons_append,
        List.nil_append]

/-- C1 amended: for every estimator, message list and positive budget, if
every message's estimated token count is within the budget (so no message
is force-split), concatenating the chunks of `split_by_tokens` in order
reconstructs the input exactly — no duplication, omission or rewriting. -/
theorem split_by_tokens_preserves_messages (tm : PyStr → Nat)
    (msgs : List Msg) (maxTokens : Nat) (hmax : 0 < maxTokens)
    (hfit : ∀ m ∈ msgs, tm m.content ≤ maxTokens) :
    (split_by_tokens tm (msgs.map PyMsg.good) maxTokens).flatten =
      msgs.map PyMsg.good := by
  obtain ⟨cs, h1⟩ := splitByTokensAux_good_ok tm maxTokens msgs [] [] 0
  have h2 := splitByTokensAux_flatten tm maxTokens msgs hfit [] [] 0 cs h1
  simp only [split_by_tokens, h1]
  simpa using h2

/-- Witness for the amended C1 at a concrete message list and budget. -/
theorem split_by_tokens_preserves_messages_witness :
    (split_by_tokens estimate_chinese_tokens
        [PyMsg.good ⟨"aa".toList, 0, [], 0⟩] 5).flatten =
      [PyMsg.good ⟨"aa".toList, 0, [], 0⟩] :=
  split_by_tokens_preserves_messages estimate_chinese_tokens
    [⟨"aa".toList, 0, [], 0⟩] 5 (by decide) (by decide)

/-- C1 counterexample: a single message of eight `'a'`s (2 estimated
tokens) with budget 1 is force-split; the resulting chunk holds a copy of
the message whose content was rewritten to `"aaaaaaaa。，"`, so concatenating
the chunks does not reconstruct the original message list. -/
theorem split_by_tokens_oversized_rewrites :
    split_by_tokens estimate_chinese_tokens
        [PyMsg.good ⟨"aaaaaaaa".toList, 0, [], 0⟩] 1 =
      [[PyMsg.good ⟨"aaaaaaaa。，".toList, 0, [], 0⟩]] ∧
    (split_by_tokens estimate_chinese_tokens
        [PyMsg.good ⟨"aaaaaaaa".toList, 0, [], 0⟩] 1).flatten ≠
      [PyMsg.good ⟨"aaaaaaaa".toList, 0, [], 0⟩] := by
  constructor <;> decide

/-- The bounded-or-forced invariant of the chunker loop. -/
theorem splitByTokensAux_bounded (tm : PyStr → Nat) (maxTokens : Nat)
    (msgs0 : List Msg) :
    ∀ (msgs : List Msg), (∀ m ∈ msgs, m ∈ msgs0) →
    ∀ (chunks : List (List PyMsg)) (cur : List PyMsg) (curTok : Nat),
    curTok = chunkTokens tm cur → curTok ≤ maxTokens →
    (∀ C ∈ chunks, chunkTokens tm C ≤ maxTokens ∨
      forcedChunk tm maxTokens msgs0 C) →
    ∀ cs, splitByTokensAux tm maxTokens (msgs.map .good) chunks cur curTok =
      .ok cs →
    ∀ C ∈ cs, chunkTokens tm C ≤ maxTokens ∨
      forcedChunk tm maxTokens msgs0 C := by
  intro msgs
  induction msgs with
  | nil =>
    intro _ chunks cur curTok hcur hle hchunks cs hcs C hC
    simp only [List.map_nil, splitByTokensAux] at hcs
    rcases hcs with ⟨rfl⟩
    by_cases hc : cur = []
    · subst hc; simp only [ne_eq, not_true_eq_false, if_neg, ite_false] at hC
      · exact hchunks C hC
    · simp only [hc, ne_eq, not_false_eq_true, if_pos, ite_true,
        List.mem_append, List.mem_singleton] at hC
      rcases hC with hC | rfl
      · exact hchunks C hC
      · exact Or.inl (hcur ▸ hle)
  | cons m rest ih =>
    intro hsub chunks cur curTok hcur hle hchunks cs hcs C hC
    have hmem : m ∈ msgs0 := hsub m (by simp)
    have hrest : ∀ x ∈ rest, x ∈ msgs0 := fun x hx => hsub x (by simp [hx])
    simp only [List.map_cons, splitByTokensAux] at hcs
    by_cases hbig : tm m.content > maxTokens
    · rw [if_pos hbig] at hcs
      refine ih hrest _ [] 0 (by simp [chunkTokens]) (Nat.zero_le _) ?_ cs hcs C hC
      intro D hD
      rcases List.mem_append.mp hD with hD | hD
      · by_cases hc : cur = []
        · subst hc; simp only [ne_eq, not_true_eq_false, if_neg, ite_false] at hD
          exact hchunks D hD
        · simp only [hc, ne_eq, not_false_eq_true, ite_true,
            List.mem_append, List.mem_singleton] at hD
          rcases hD with hD | rfl
          · exact hchunks D hD
          · exact Or.inl (hcur ▸ hle)
      · exact Or.inr ⟨m, hmem, hbig, hD⟩
    · rw [if_neg hbig] at hcs
      by_cases hover : curTok + tm m.content > maxTokens
      · rw [if_pos hover] at hcs
        refine ih hrest _ [.good m] (tm m.content) (by simp [chunkTokens])
          (by omega) ?_ cs hcs C hC
        intro D hD
        rcases List.mem_append.mp hD with hD | hD
        · exact hchunks D hD
        · rcases List.mem_singleton.mp hD with rfl
          exact Or.inl (hcur ▸ hle)
      · rw [if_neg hover] at hcs
        refine ih hrest chunks (cur ++ [.good m]) (curTok + tm m.content)
          ?_ (by omega) hchunks cs hcs C hC
        simp [chunkTokens, hcur]

/-- C2: every chunk produced by `split_by_tokens` on well-formed messages
with a positive budget either has total estimated token count within the
budget, or arises from force-splitting a single message whose own
estimated token count exceeds the budget. -/
theorem split_by_tokens_chunks_bounded (tm : PyStr → Nat) (msgs : List Msg)
    (maxTokens : Nat) (hmax : 0 < maxTokens) :
    ∀ C ∈ split_by_tokens tm (msgs.map PyMsg.good) maxTokens,
      chunkTokens tm C ≤ maxTokens ∨ forcedChunk tm maxTokens msgs C := by
  intro C hC
  obtain ⟨cs, h1⟩ := splitByTokensAux_good_ok tm maxTokens msgs [] [] 0
  rw [split_by_tokens, h1] at hC
  exact splitByTokensAux_bounded tm maxTokens msgs msgs (fun _ h => h) [] [] 0
    (by simp [chunkTokens]) (Nat.zero_le _) (by simp) cs h1 C hC

/-- Witness for C2 at a concrete message list and budget. -/
theorem split_by_tokens_chunks_bounded_witness :
    chunkTokens estimate_chinese_tokens
        [PyMsg.good ⟨"aa".toList, 0, [], 0⟩] ≤ 5 ∨
      forcedChunk estimate_chinese_tokens 5 [⟨"aa".toList, 0, [], 0⟩]
        [PyMsg.good ⟨"aa".toList, 0, [], 0⟩] :=
  split_by_tokens_chunks_bounded estimate_chinese_tokens
    [⟨"aa".toList, 0, [], 0⟩] 5 (by decide)
    [PyMsg.good ⟨"aa".toList, 0, [], 0⟩] (by decide)

/-- Reaching a malformed message raises inside the loop. -/
theorem splitByTokensAux_bad (tm : PyStr → Nat) (maxTokens : Nat) :
    ∀ (msgs : List PyMsg), PyMsg.bad ∈ msgs →
    ∀ (chunks : List (List PyMsg)) (cur : List PyMsg) (curTok : Nat),
    splitByTokensAux tm maxTokens msgs chunks cur curTok = .error () := by
  intro msgs
  induction msgs with
  | nil => intro h; exact absurd h (List.not_mem_nil _)
  | cons p rest ih =>
    intro hbad chunks cur curTok
    cases p with
    | bad => rfl
    | good m =>
      have hrest : PyMsg.bad ∈ rest := by
        rcases List.mem_cons.mp hbad with h | h
        · exact absurd h (by simp)
        · exact h
      simp only [splitByTokensAux]
      split
      · exact ih hrest _ _ _
      · split
        · exact ih hrest _ _ _
        · exact ih hrest _ _ _

/-- C9 amended: when an internal error occurs while processing some message
(modelled as a malformed message anywhere in the input), the chunker does
not raise, but it returns `[[]]` — a list holding a single empty chunk —
discarding all chunks accumulated before the error, not preserving them. -/
theorem split_by_tokens_error_discards (tm : PyStr → Nat)
    (msgs : List PyMsg) (maxTokens : Nat) (hbad : PyMsg.bad ∈ msgs) :
    split_by_tokens tm msgs maxTokens = [[]] := by
  rw [split_by_tokens, splitByTokensAux_bad tm maxTokens msgs hbad]

/-- Witness for the amended C9 at a concrete input. -/
theorem split_by_tokens_error_discards_witness :
    split_by_tokens estimate_chinese_tokens [PyMsg.bad] 5 = [[]] :=
  split_by_tokens_error_discards estimate_chinese_tokens [PyMsg.bad] 5
    (by decide)

/-- C9 counterexample: with budget 3, the first two messages (2 tokens
each) have already produced the accumulated chunk `[[msg1]]` when the
malformed third entry raises, yet the chunker returns `[[]]`, not the
accumulated chunks. -/
theorem split_by_tokens_error_loses_progress :
    split_by_tokens estimate_chinese_tokens
        [PyMsg.good ⟨"aaaaaaaa".toList, 0, [], 0⟩,
         PyMsg.good ⟨"bbbbbbbb".toList, 0, [], 0⟩, PyMsg.bad] 3 = [[]] ∧
    ([[]] : List (List PyMsg)) ≠
      [[PyMsg.good ⟨"aaaaaaaa".toList, 0, [], 0⟩]] := by
  constructor <;> decide

/-! ## The two-tier summary cache (`src/summarizer/cache.py`,
`src/utils/redis_client.py`) -/

section Cache

variable {κ ν : Type} [DecidableEq κ]

/-- One tier of the multi-level cache: an association list mirroring
Python's `OrderedDict`, ordered least-recently-used first,
most-recently-used last. -/
abbrev Tier (κ ν : Type) := List (κ × ν)

/-- Python dictionary lookup. -/
def alookup (k : κ) (l : Tier κ ν) : Option ν :=
  (l.find? (fun e => e.1 == k)).map (·.2)

/-- Removing a key's binding.  `OrderedDict` keys are unique, so re-binding
a key then `move_to_end` amounts to removing the old binding and appending
the new one. -/
def aerase (k : κ) (l : Tier κ ν) : Tier κ ν :=
  l.filter (fun e => !(e.1 == k))

/-- `SummaryCache` state: the Tier-1 capacity `max_memory_items`, the
Tier-1 `OrderedDict`, the Tier-2 (Redis) store, whether a Redis client was
supplied at all, and whether Redis operations currently succeed (a dead
connection makes `RedisClient.get` return `None` and `RedisClient.set`
return `False`). -/
structure CacheState (κ ν : Type) where
  cap : Nat
  t1 : Tier κ ν
  t2 : Tier κ ν
  redisPresent : Bool
  redisOk : Bool

/-- The `while len(memory_cache) >= max_memory_items` eviction loop of
`_add_to_memory`, popping the least-recently-used entry each round; the
returned flag records whether `popitem` raised `KeyError` on an exhausted
dict, which happens exactly when the capacity is 0 (evictions performed
before the exception persist, and `_add_to_memory` catches it). -/
def evictLoop (cap : Nat) : Tier κ ν → Tier κ ν × Bool
  | [] => if cap = 0 then ([], true) else ([], false)
  | e :: rest =>
    if (e :: rest).length ≥ cap then evictLoop cap rest
    else (e :: rest, false)

/-- `SummaryCache._add_to_memory`: evict down below capacity, then bind the
key and mark it most-recently-used; if the eviction loop raised, the
caught exception means the new entry is never added. -/
def addToMemory (cap : Nat) (k : κ) (v : ν) (t1 : Tier κ ν) : Tier κ ν :=
  match evictLoop cap t1 with
  | (t1', true) => t1'
  | (t1', false) => aerase k t1' ++ [(k, v)]

/-- `SummaryCache.get`: a Tier-1 hit moves the entry to most-recently-used;
otherwise, with a live Redis client, a Tier-2 hit is promoted into Tier 1
before being returned. -/
def cacheGet (st : CacheState κ ν) (k : κ) : Option ν × CacheState κ ν :=
  match alookup k st.t1 with
  | some v => (some v, { st with t1 := aerase k st.t1 ++ [(k, v)] })
  | none =>
    if st.redisPresent ∧ st.redisOk then
      match alookup k st.t2 with
      | some v => (some v, { st with t1 := addToMemory st.cap k v st.t1 })
      | none => (none, st)
    else (none, st)

/-- `SummaryCache.set`: always write Tier 1; then, when a Redis client was
supplied, return the Tier-2 write's own result — `False` when the Redis
write fails, even though Tier 1 already holds the value. -/
def cacheSet (st : CacheState κ ν) (k : κ) (v : ν) : Bool × CacheState κ ν :=
  let t1' := addToMemory st.cap k v st.t1
  if st.redisPresent then
    if st.redisOk then
      (true, { st with t1 := t1', t2 := aerase k st.t2 ++ [(k, v)] })
    else (false, { st with t1 := t1' })
  else (true, { st with t1 := t1' })

/-- A client-visible cache operation. -/
inductive CacheOp (κ ν : Type) where
  | get (k : κ)
  | set (k : κ) (v : ν)

/-- Run one operation for its state effect. -/
def runOp (st : CacheState κ ν) : CacheOp κ ν → CacheState κ ν
  | .get k => (cacheGet st k).2
  | .set k v => (cacheSet st k v).2

/-- Run a sequence of operations left to right. -/
def runOps (st : CacheState κ ν) (ops : List (CacheOp κ ν)) : CacheState κ ν :=
  ops.foldl runOp st

theorem alookup_append (k : κ) (l1 l2 : Tier κ ν) :
    alookup k (l1 ++ l2) = (alookup k l1).or (alookup k l2) := by
  simp only [alookup, List.find?_append]
  cases List.find? (fun e => e.1 == k) l1 <;> simp

theorem alookup_eq_none_of_not_mem {k : κ} {l : Tier κ ν}
    (h : k ∉ l.map Prod.fst) : alookup k l = none := by
  have hf : l.find? (fun e => e.1 == k) = none := by
    apply List.find?_eq_none.mpr
    intro e he
    simp only [beq_iff_eq]
    intro hek
    exact h (hek ▸ List.mem_map_of_mem Prod.fst he)
  simp [alookup, hf]

theorem aerase_not_mem (k : κ) (l : Tier κ ν) :
    k ∉ (aerase k l).map Prod.fst := by
  intro h
  obtain ⟨e, he, hek⟩ := List.mem_map.mp h
  have := (List.mem_filter.mp he).2
  simp [hek] at this

theorem alookup_aerase_append (k : κ) (v : ν) (l : Tier κ ν) :
    alookup k (aerase k l ++ [(k, v)]) = some v := by
  rw [alookup_append, alookup_eq_none_of_not_mem (aerase_not_mem k l)]
  simp [alookup]

theorem aerase_eq_self_of_not_mem {k : κ} {l : Tier κ ν}
    (h : k ∉ l.map Prod.fst) : aerase k l = l := by
  apply List.filter_eq_self.mpr
  intro e he
  simp only [Bool.not_eq_eq_eq_not, Bool.not_true, beq_eq_false_iff_ne, ne_eq]
  intro hek
  exact h (hek ▸ List.mem_map_of_mem Prod.fst he)

theorem evictLoop_crash (cap : Nat) (l : Tier κ ν)
    (h : (evictLoop cap l).2 = true) : (evictLoop cap l).1 = [] ∧ cap = 0 := by
  induction l with
  | nil =>
    by_cases hc : cap = 0
    · simp [evictLoop, hc]
    · simp [evictLoop, hc] at h
  | cons e rest ih =>
    by_cases hlen : (e :: rest).length ≥ cap
    · rw [evictLoop, if_pos hlen] at h ⊢; exact ih h
    · rw [evictLoop, if_neg hlen] at h; simp at h

theorem evictLoop_length (cap : Nat) (l : Tier κ ν)
    (h : (evictLoop cap l).2 = false) : (evictLoop cap l).1.length < cap := by
  induction l with
  | nil =>
    by_cases hc : cap = 0
    · simp [evictLoop, hc] at h
    · rw [evictLoop, if_neg hc] at h ⊢; simpa using Nat.pos_of_ne_zero hc
  | cons e rest ih =>
    by_cases hlen : (e :: rest).length ≥ cap
    · rw [evictLoop, if_pos hlen] at h ⊢; exact ih h
    · rw [evictLoop, if_neg hlen]
      show (e :: rest).length < cap
      omega

theorem evictLoop_ok_of_pos (cap : Nat) (l : Tier κ ν) (h : 1 ≤ cap) :
    (evictLoop cap l).2 = false := by
  induction l with
  | nil => rw [evictLoop, if_neg (by omega)]
  | cons e rest ih =>
    by_cases hlen : (e :: rest).length ≥ cap
    · rw [evictLoop, if_pos hlen]; exact ih
    · rw [evictLoop, if_neg hlen]

theorem evictLoop_noop {cap : Nat} {l : Tier κ ν} (h : l.length < cap) :
    evictLoop cap l = (l, false) := by
  cases l with
  | nil => rw [evictLoop, if_neg (by simp at h; omega)]
  | cons e rest => rw [evictLoop, if_neg (by omega)]

theorem evictLoop_full {cap : Nat} {l : Tier κ ν} (hcap : 1 ≤ cap)
    (h : l.length = cap) : evictLoop cap l = (l.drop 1, false) := by
  cases l with
  | nil => simp at h; omega
  | cons e rest =>
    rw [evictLoop, if_pos (by omega)]
    have : rest.length < cap := by simp at h; omega
    simpa using evictLoop_noop this

theorem addToMemory_length (cap : Nat) (k : κ) (v : ν) (t1 : Tier κ ν) :
    (addToMemory cap k v t1).length ≤ cap := by
  unfold addToMemory
  rcases hev : evictLoop cap t1 with ⟨t1', fl⟩
  cases fl
  · have hlt : t1'.length < cap := by
      have := evictLoop_length cap t1 (by rw [hev])
      rwa [hev] at this
    simp only
    have : (aerase k t1').length ≤ t1'.length := List.length_filter_le _ _
    simp only [List.length_append, List.length_cons, List.length_nil]
    omega
  · have := evictLoop_crash cap t1 (by rw [hev])
    rw [hev] at this
    have h1 : t1' = [] := this.1
    simp [h1]

theorem cacheSet_t1 (st : CacheState κ ν) (k : κ) (v : ν) :
    ((cacheSet st k v).2).t1 = addToMemory st.cap k v st.t1 := by
  unfold cacheSet
  split
  · split <;> rfl
  · rfl

theorem cacheSet_cap (st : CacheState κ ν) (k : κ) (v : ν) :
    ((cacheSet st k v).2).cap = st.cap := by
  unfold cacheSet
  split
  · split <;> rfl
  · rfl

theorem cacheGet_cap (st : CacheState κ ν) (k : κ) :
    ((cacheGet st k).2).cap = st.cap := by
  unfold cacheGet
  rcases alookup k st.t1 with _ | v
  · simp only
    split
    · rcases alookup k st.t2 with _ | w <;> rfl
    · rfl
  · rfl

theorem cacheGet_t1_length (st : CacheState κ ν) (k : κ)
    (h : st.t1.length ≤ st.cap) : ((cacheGet st k).2).t1.length ≤ st.cap := by
  unfold cacheGet
  rcases hlo : alookup k st.t1 with _ | v
  · simp only
    split
    · rcases alookup k st.t2 with _ | w
      · simpa using h
      · simpa using addToMemory_length st.cap k w st.t1
    · simpa using h
  · simp only [List.length_append, List.length_cons, List.length_nil]
    have hfound : ∃ e ∈ st.t1, ¬(fun x => !(x.1 == k)) e = true := by
      rcases hf : st.t1.find? (fun e => e.1 == k) with _ | e
      · rw [alookup, hf] at hlo; simp at hlo
      · exact ⟨e, List.mem_of_find?_eq_some hf,
          by simpa using List.find?_some hf⟩
    have : (aerase k st.t1).length < st.t1.length := by
      simpa [aerase] using List.length_filter_lt_length_iff_exists.mpr hfound
    omega

theorem runOp_cap (st : CacheState κ ν) (op : CacheOp κ ν) :
    (runOp st op).cap = st.cap := by
  cases op with
  | get k => exact cacheGet_cap st k
  | set k v => exact cacheSet_cap st k v

theorem runOp_t1_length (st : CacheState κ ν) (op : CacheOp κ ν)
    (h : st.t1.length ≤ st.cap) : (runOp st op).t1.length ≤ st.cap := by
  cases op with
  | get k => exact cacheGet_t1_length st k h
  | set k v =>
    rw [runOp, cacheSet_t1]
    exact addToMemory_length st.cap k v st.t1

theorem runOps_append (st : CacheState κ ν) (l1 l2 : List (CacheOp κ ν)) :
    runOps st (l1 ++ l2) = runOps (runOps st l1) l2 :=
  List.foldl_append _ _ _ _

theorem aerase_eq_self_of_alookup_none {k : κ} {l : Tier κ ν}
    (h : alookup k l = none) : aerase k l = l := by
  have hf : l.find? (fun e => e.1 == k) = none := by
    rcases hf : l.find? (fun e => e.1 == k) with _ | e
    · exact hf
    · rw [alookup, hf] at h; simp at h
  apply List.filter_eq_self.mpr
  intro e he
  have := List.find?_eq_none.mp hf e he
  simpa using this

theorem not_mem_aerase_of_not_mem {a k : κ} {l : Tier κ ν}
    (h : a ∉ l.map Prod.fst) : a ∉ (aerase k l).map Prod.fst := by
  intro hmem
  obtain ⟨e, he, hea⟩ := List.mem_map.mp hmem
  exact h (hea ▸ List.mem_map_of_mem Prod.fst (List.mem_of_mem_filter he))

theorem aerase_length_succ {k : κ} {l : Tier κ ν}
    (hnd : (l.map Prod.fst).Nodup) (hmem : k ∈ l.map Prod.fst) :
    (aerase k l).length + 1 = l.length := by
  induction l with
  | nil => simp at hmem
  | cons e rest ih =>
    simp only [List.map_cons, List.nodup_cons] at hnd
    rcases hnd with ⟨hhead, hndrest⟩
    by_cases hek : e.1 = k
    · have hnot : aerase k rest = rest :=
        aerase_eq_self_of_not_mem (hek ▸ hhead)
      simp only [aerase] at hnot
      simp [aerase, List.filter_cons, hek, hnot]
    · have hmem' : k ∈ rest.map Prod.fst := by
        rw [List.map_cons] at hmem
        rcases List.mem_cons.mp hmem with h | h
        · exact absurd h.symm hek
        · exact h
      have := ih hndrest hmem'
      simp only [aerase, List.filter_cons] at this ⊢
      rw [if_pos (by simpa using hek)]
      simp only [List.length_cons]
      omega

/-- Inserting a run of fresh keys that fits the remaining capacity appends
them to Tier 1 in order, without evictions. -/
theorem runOps_set_fresh (kvs : List (κ × ν)) :
    ∀ (st : CacheState κ ν),
    st.t1.length + kvs.length ≤ st.cap →
    (∀ e ∈ kvs, alookup e.1 st.t1 = none) →
    (kvs.map Prod.fst).Nodup →
    (runOps st (kvs.map (fun e => CacheOp.set e.1 e.2))).t1 = st.t1 ++ kvs ∧
    (runOps st (kvs.map (fun e => CacheOp.set e.1 e.2))).cap = st.cap := by
  induction kvs with
  | nil => intro st _ _ _; constructor <;> simp [runOps]
  | cons kv rest ih =>
    intro st hlen hfresh hnd
    have ht1len : st.t1.length < st.cap := by
      simp only [List.length_cons] at hlen; omega
    have hkv_fresh : alookup kv.1 st.t1 = none := hfresh kv (by simp)
    have hstep_t1 : ((cacheSet st kv.1 kv.2).2).t1 = st.t1 ++ [kv] := by
      rw [cacheSet_t1, addToMemory, evictLoop_noop ht1len]
      show aerase kv.1 st.t1 ++ [kv] = st.t1 ++ [kv]
      rw [aerase_eq_self_of_alookup_none hkv_fresh]
    have hstep_cap : ((cacheSet st kv.1 kv.2).2).cap = st.cap :=
      cacheSet_cap st kv.1 kv.2
    simp only [List.map_cons, List.nodup_cons] at hnd
    have hrest := ih ((cacheSet st kv.1 kv.2).2)
      (by rw [hstep_t1, hstep_cap]; simp only [List.length_append,
        List.length_cons, List.length_nil] at hlen ⊢; omega)
      (by
        intro e he
        rw [hstep_t1, alookup_append, hfresh e (by simp [he])]
        have hne : (kv.1 == e.1) = false := by
          apply beq_eq_false_iff_ne.mpr
          intro hk
          exact hnd.1 (hk ▸ List.mem_map_of_mem Prod.fst he)
        simp [alookup, hne])
      hnd.2
    have hops : (kv :: rest).map (fun e => (CacheOp.set e.1 e.2 : CacheOp κ ν)) =
        CacheOp.set kv.1 kv.2 :: rest.map (fun e => CacheOp.set e.1 e.2) := by
      simp
    rw [hops]
    have hrun : runOps st (CacheOp.set kv.1 kv.2 ::
        rest.map (fun e => CacheOp.set e.1 e.2)) =
        runOps ((cacheSet st kv.1 kv.2).2) (rest.map (fun e => CacheOp.set e.1 e.2)) :=
      rfl
    rw [hrun]
    refine ⟨?_, by rw [hrest.2, hstep_cap]⟩
    rw [hrest.1, hstep_t1]
    simp

/-- C4: Tier-1 capacity is an invariant of every `get`/`set` sequence, and
inserting `cap + 1` distinct keys into an initially empty Tier 1 leaves
exactly the last `cap` of them, the first-inserted (least-recently-used)
key being the one evicted. -/
theorem tier1_capacity_and_lru :
    (∀ (st : CacheState κ ν) (ops : List (CacheOp κ ν)),
      st.t1.length ≤ st.cap → (runOps st ops).t1.length ≤ st.cap) ∧
    (∀ (cap : Nat) (kvs : List (κ × ν)) (t2 : Tier κ ν) (p q : Bool),
      kvs.length = cap + 1 → (kvs.map Prod.fst).Nodup →
      (runOps ⟨cap, [], t2, p, q⟩ (kvs.map (fun e => CacheOp.set e.1 e.2))).t1 =
        kvs.drop 1) := by
  constructor
  · intro st ops
    induction ops generalizing st with
    | nil => intro h; simpa [runOps]
    | cons op ops ih =>
      intro h
      have hstep := runOp_t1_length st op h
      have hcap := runOp_cap st op
      have := ih (runOp st op) (by rw [hcap]; exact hstep)
      rw [hcap] at this
      simpa [runOps] using this
  · intro cap kvs t2 p q hlen hnd
    have hne : kvs ≠ [] := by intro h; rw [h] at hlen; simp at hlen
    obtain ⟨front, lastE, hdec⟩ : ∃ front lastE, kvs = front ++ [lastE] :=
      ⟨kvs.dropLast, kvs.getLast hne, (List.dropLast_append_getLast hne).symm⟩
    have hfrontlen : front.length = cap := by
      rw [hdec] at hlen; simp at hlen; omega
    have hmapsplit : kvs.map Prod.fst = front.map Prod.fst ++ [lastE.1] := by
      rw [hdec]; simp
    have hndfront : (front.map Prod.fst).Nodup :=
      (List.nodup_append.mp (hmapsplit ▸ hnd)).1
    have hlastfresh : lastE.1 ∉ front.map Prod.fst := by
      have hdisj := (List.nodup_append.mp (hmapsplit ▸ hnd)).2.2
      intro hmem
      exact hdisj hmem (by simp)
    set st0 : CacheState κ ν := ⟨cap, [], t2, p, q⟩ with hst0
    have hphaseA := runOps_set_fresh front st0
      (by simp [hst0, hfrontlen])
      (by intro e he; simp [hst0, alookup])
      hndfront
    rw [hdec, List.map_append, runOps_append]
    set st1 := runOps st0 (front.map (fun e => CacheOp.set e.1 e.2)) with hst1
    have ht1 : st1.t1 = front := by simp [hphaseA.1, hst0]
    have hcap1 : st1.cap = cap := by simp [hphaseA.2, hst0]
    have hrun1 : runOps st1 [CacheOp.set lastE.1 lastE.2] =
        (cacheSet st1 lastE.1 lastE.2).2 := rfl
    simp only [List.map_cons, List.map_nil]
    rw [hrun1, cacheSet_t1, ht1, hcap1]
    rcases Nat.eq_zero_or_pos cap with hc0 | hcpos
    · have hfrontnil : front = [] := List.length_eq_zero.mp (by omega)
      subst hc0
      rw [hfrontnil]
      show ([] : Tier κ ν) = List.drop 1 ([] ++ [lastE])
      simp
    · rw [addToMemory, evictLoop_full hcpos hfrontlen]
      have hnotmem : lastE.1 ∉ (front.drop 1).map Prod.fst := by
        intro hmem
        obtain ⟨e, he, hee⟩ := List.mem_map.mp hmem
        exact hlastfresh (hee ▸ List.mem_map_of_mem Prod.fst
          (List.mem_of_mem_drop he))
      show aerase lastE.1 (front.drop 1) ++ [lastE] =
        List.drop 1 (front ++ [lastE])
      rw [aerase_eq_self_of_not_mem hnotmem,
        List.drop_append_of_le_length (by omega)]

/-- Witness for C4 at a concrete two-key overflow of a capacity-1 cache. -/
theorem tier1_capacity_and_lru_witness :
    (runOps (⟨1, [], [], false, false⟩ : CacheState Nat Nat)
        ([((0 : Nat), (10 : Nat)), (1, 20)].map
          (fun e => CacheOp.set e.1 e.2))).t1 =
      [((0 : Nat), (10 : Nat)), (1, 20)].drop 1 :=
  tier1_capacity_and_lru.2 1 [(0, 10), (1, 20)] [] false false
    (by decide) (by decide)

/-- C8 amended: when a Redis client is present but the Tier-2 write fails,
`set` reports failure (`False`) — the Tier-2 failure *does* fail the
overall `set` — yet Tier 1 holds the value and a subsequent `get` returns
it. -/
theorem cacheSet_tier2_failure (st : CacheState κ ν) (k : κ) (v : ν)
    (hcap : 1 ≤ st.cap) (hp : st.redisPresent = true)
    (hq : st.redisOk = false) :
    (cacheSet st k v).1 = false ∧
    alookup k ((cacheSet st k v).2).t1 = some v ∧
    (cacheGet ((cacheSet st k v).2) k).1 = some v := by
  have ht1 : ((cacheSet st k v).2).t1 =
      aerase k (evictLoop st.cap st.t1).1 ++ [(k, v)] := by
    rw [cacheSet_t1, addToMemory]
    rcases hev : evictLoop st.cap st.t1 with ⟨t1', fl⟩
    cases fl
    · rfl
    · have := evictLoop_ok_of_pos st.cap st.t1 hcap
      rw [hev] at this; simp at this
  have hlook : alookup k ((cacheSet st k v).2).t1 = some v := by
    rw [ht1]; exact alookup_aerase_append k v _
  refine ⟨?_, hlook, ?_⟩
  · unfold cacheSet
    simp [hp, hq]
  · unfold cacheGet
    rw [hlook]

/-- Witness for the amended C8 at a concrete cache state. -/
theorem cacheSet_tier2_failure_witness :
    (cacheSet (⟨3, [], [], true, false⟩ : CacheState Nat Nat) 1 5).1 =
      false ∧
    alookup 1 ((cacheSet (⟨3, [], [], true, false⟩ :
      CacheState Nat Nat) 1 5).2).t1 = some 5 ∧
    (cacheGet ((cacheSet (⟨3, [], [], true, false⟩ :
      CacheState Nat Nat) 1 5).2) 1).1 = some 5 :=
  cacheSet_tier2_failure (⟨3, [], [], true, false⟩ : CacheState Nat Nat)
    1 5 (by decide) rfl rfl

/-- C8 counterexample: Tier-1 insertion succeeds but the Tier-2 (Redis)
write fails, and `set` reports failure instead of the claimed overall
success — even though the value is still readable from Tier 1. -/
theorem cacheSet_tier2_failure_reports_failure :
    (cacheSet (⟨2, [], [], true, false⟩ : CacheState Nat Nat) 0 7).1 ≠ true ∧
    alookup 0 ((cacheSet (⟨2, [], [], true, false⟩ : CacheState Nat Nat)
      0 7).2).t1 = some 7 := by
  constructor <;> decide

/-- C10: re-binding a key that is already present in a full Tier 1 still
runs the eviction loop first, so the least-recently-used entry (the head,
here distinct from the key being written) is evicted even though no new
slot is needed, and Tier 1 shrinks below capacity. -/
theorem cacheSet_full_rebind_evicts_lru (st : CacheState κ ν) (k : κ)
    (v : ν) (e : κ × ν) (rest : Tier κ ν) (ht1 : st.t1 = e :: rest)
    (hfull : st.t1.length = st.cap) (hnd : (st.t1.map Prod.fst).Nodup)
    (hne : e.1 ≠ k) (hmem : k ∈ st.t1.map Prod.fst) :
    alookup e.1 ((cacheSet st k v).2).t1 = none ∧
    alookup k ((cacheSet st k v).2).t1 = some v ∧
    ((cacheSet st k v).2).t1.length + 1 = st.cap := by
  have hcap1 : 1 ≤ st.cap := by
    rw [← hfull, ht1]; simp
  have hrest_nd : (rest.map Prod.fst).Nodup ∧ e.1 ∉ rest.map Prod.fst := by
    rw [ht1] at hnd
    simp only [List.map_cons, List.nodup_cons] at hnd
    exact ⟨hnd.2, hnd.1⟩
  have hkmem : k ∈ rest.map Prod.fst := by
    rw [ht1, List.map_cons] at hmem
    rcases List.mem_cons.mp hmem with h | h
    · exact absurd h.symm hne
    · exact h
  have ht1' : ((cacheSet st k v).2).t1 = aerase k rest ++ [(k, v)] := by
    rw [cacheSet_t1, addToMemory, ht1,
      evictLoop_full hcap1 (by rw [← ht1]; exact hfull)]
    rfl
  refine ⟨?_, ?_, ?_⟩
  · rw [ht1', alookup_append,
      alookup_eq_none_of_not_mem (not_mem_aerase_of_not_mem hrest_nd.2)]
    have : (k == e.1) = false := beq_eq_false_iff_ne.mpr (Ne.symm hne)
    simp [alookup, this]
  · rw [ht1']; exact alookup_aerase_append k v rest
  · rw [ht1']
    have := aerase_length_succ hrest_nd.1 hkmem
    have hrestlen : rest.length + 1 = st.cap := by
      rw [← hfull, ht1]; simp
    simp only [List.length_append, List.length_cons, List.length_nil]
    omega

/-- Witness for C10: a full capacity-2 Tier 1 re-binds the key `2`; the
unrelated LRU entry `1` is evicted and Tier 1 shrinks to one entry. -/
theorem cacheSet_full_rebind_evicts_lru_witness :
    alookup 1 ((cacheSet (⟨2, [(1, 10), (2, 20)], [], false, false⟩ :
      CacheState Nat Nat) 2 99).2).t1 = none ∧
    alookup 2 ((cacheSet (⟨2, [(1, 10), (2, 20)], [], false, false⟩ :
      CacheState Nat Nat) 2 99).2).t1 = some 99 ∧
    ((cacheSet (⟨2, [(1, 10), (2, 20)], [], false, false⟩ :
      CacheState Nat Nat) 2 99).2).t1.length + 1 = 2 :=
  cacheSet_full_rebind_evicts_lru
    (⟨2, [(1, 10), (2, 20)], [], false, false⟩ : CacheState Nat Nat)
    2 99 (1, 10) [(2, 20)] rfl rfl (by decide) (by decide) (by decide)

theorem alookup_some_mem {k : κ} {v : ν} {l : Tier κ ν}
    (h : alookup k l = some v) : (k, v) ∈ l := by
  rcases hf : l.find? (fun e => e.1 == k) with _ | e
  · rw [alookup, hf] at h; simp at h
  · rw [alookup, hf] at h
    have hk : e.1 = k := by simpa using List.find?_some hf
    have hv : e.2 = v := by simpa using h
    have hmem := List.mem_of_find?_eq_some hf
    rcases e with ⟨a, b⟩
    simp only at hk hv
    rw [← hk, ← hv]
    exact hmem

theorem alookup_ex_of_mem {k : κ} {v : ν} {l : Tier κ ν}
    (h : (k, v) ∈ l) : ∃ w, alookup k l = some w := by
  have hs : (l.find? (fun e => e.1 == k)).isSome :=
    List.find?_isSome.mpr ⟨(k, v), h, by simp⟩
  rcases hf : l.find? (fun e => e.1 == k) with _ | e
  · rw [hf] at hs; simp at hs
  · exact ⟨e.2, by rw [alookup, hf]; rfl⟩

theorem mem_evictLoop {e : κ × ν} {cap : Nat} {l : Tier κ ν}
    (h : e ∈ (evictLoop cap l).1) : e ∈ l := by
  induction l with
  | nil =>
    rw [evictLoop] at h
    split at h <;> simp at h
  | cons x rest ih =>
    rw [evictLoop] at h
    split at h
    · exact List.mem_cons_of_mem x (ih h)
    · exact h

theorem mem_aerase {e : κ × ν} {k : κ} {l : Tier κ ν}
    (h : e ∈ aerase k l) : e ∈ l := List.mem_of_mem_filter h

theorem mem_addToMemory {e : κ × ν} {cap : Nat} {k : κ} {v : ν}
    {l : Tier κ ν} (h : e ∈ addToMemory cap k v l) : e ∈ l ∨ e = (k, v) := by
  rw [addToMemory] at h
  rcases hev : evictLoop cap l with ⟨l', fl⟩
  rw [hev] at h
  cases fl
  · simp only at h
    rcases List.mem_append.mp h with h | h
    · exact Or.inl (mem_evictLoop (hev ▸ mem_aerase h : e ∈ (evictLoop cap l).1))
    · exact Or.inr (List.mem_singleton.mp h)
  · exact Or.inl (mem_evictLoop (hev ▸ h : e ∈ (evictLoop cap l).1))

theorem cacheGet_t2 (st : CacheState κ ν) (k : κ) :
    ((cacheGet st k).2).t2 = st.t2 := by
  unfold cacheGet
  rcases alookup k st.t1 with _ | v
  · simp only
    split
    · rcases alookup k st.t2 with _ | w <;> rfl
    · rfl
  · rfl

theorem cacheGet_flags (st : CacheState κ ν) (k : κ) :
    ((cacheGet st k).2).redisPresent = st.redisPresent ∧
    ((cacheGet st k).2).redisOk = st.redisOk := by
  unfold cacheGet
  rcases alookup k st.t1 with _ | v
  · simp only
    split
    · rcases alookup k st.t2 with _ | w <;> exact ⟨rfl, rfl⟩
    · exact ⟨rfl, rfl⟩
  · exact ⟨rfl, rfl⟩

theorem cacheSet_flags (st : CacheState κ ν) (k : κ) (v : ν) :
    ((cacheSet st k v).2).redisPresent = st.redisPresent ∧
    ((cacheSet st k v).2).redisOk = st.redisOk := by
  unfold cacheSet
  split
  · split <;> exact ⟨rfl, rfl⟩
  · exact ⟨rfl, rfl⟩

theorem mem_cacheGet_t1 {e : κ × ν} {st : CacheState κ ν} {k : κ}
    (h : e ∈ ((cacheGet st k).2).t1) : e ∈ st.t1 ∨ e ∈ st.t2 := by
  unfold cacheGet at h
  rcases hlo : alookup k st.t1 with _ | v <;> rw [hlo] at h
  · simp only at h
    split at h
    · rcases hl2 : alookup k st.t2 with _ | w <;> rw [hl2] at h
      · exact Or.inl h
      · simp only at h
        rcases mem_addToMemory h with h | rfl
        · exact Or.inl h
        · exact Or.inr (alookup_some_mem hl2)
    · exact Or.inl h
  · simp only at h
    rcases List.mem_append.mp h with h | h
    · exact Or.inl (mem_aerase h)
    · rcases List.mem_singleton.mp h with rfl
      exact Or.inl (alookup_some_mem hlo)

theorem cacheGet_fst_mem {st : CacheState κ ν} {k : κ} {v : ν}
    (h : (cacheGet st k).1 = some v) : (k, v) ∈ st.t1 ∨ (k, v) ∈ st.t2 := by
  unfold cacheGet at h
  rcases hlo : alookup k st.t1 with _ | w <;> rw [hlo] at h
  · simp only at h
    split at h
    · rcases hl2 : alookup k st.t2 with _ | w <;> rw [hl2] at h
      · simp at h
      · simp only [Option.some.injEq] at h
        exact Or.inr (h ▸ alookup_some_mem hl2)
    · simp at h
  · simp only [Option.some.injEq] at h
    exact Or.inl (h ▸ alookup_some_mem hlo)

theorem mem_cacheSet_t1 {e : κ × ν} {st : CacheState κ ν} {k : κ} {v : ν}
    (h : e ∈ ((cacheSet st k v).2).t1) : e ∈ st.t1 ∨ e = (k, v) := by
  rw [cacheSet_t1] at h
  exact mem_addToMemory h

theorem mem_cacheSet_t2 {e : κ × ν} {st : CacheState κ ν} {k : κ} {v : ν}
    (h : e ∈ ((cacheSet st k v).2).t2) : e ∈ st.t2 ∨ e = (k, v) := by
  unfold cacheSet at h
  split at h
  · split at h
    · simp only at h
      rcases List.mem_append.mp h with h | h
      · exact Or.inl (mem_aerase h)
      · exact Or.inr (List.mem_singleton.mp h)
    · exact Or.inl h
  · exact Or.inl h

theorem cacheSet_t2_ok {st : CacheState κ ν} (k : κ) (v : ν)
    (hp : st.redisPresent = true) (hq : st.redisOk = true) :
    ((cacheSet st k v).2).t2 = aerase k st.t2 ++ [(k, v)] := by
  unfold cacheSet
  rw [hp, hq]
  rfl

theorem cacheGet_miss {st : CacheState κ ν} {k : κ}
    (h1 : alookup k st.t1 = none) (h2 : alookup k st.t2 = none) :
    cacheGet st k = (none, st) := by
  unfold cacheGet
  rw [h1]
  split
  · rename_i v heq
    simp at heq
  · rw [h2]
    split
    · rfl
    · rfl

end Cache

/-! ## The recursive summarizer (`src/summarizer/recursive_sum.py`) -/

/-- A summary dictionary as `_summarize_chunk` and
`_merge_topic_summaries` build it: the model's text, the time range taken
from the first and last input, and the message count. -/
structure Summary where
  content : PyStr
  rangeStart : Nat
  rangeEnd : Nat
  messageCount : Nat
deriving DecidableEq, Repr

/-- Summarizer cache keys: `f"sum_l1_{hash(str(chunk))}"` and
`f"sum_l2_{hash(str(summaries))}"` are deterministic fingerprints of the
exact ordered input, modelled injectively by the input itself. -/
inductive SKey where
  | l1 (chunk : List Msg)
  | l2 (sums : List Summary)
deriving DecidableEq

/-- The summarizer's cache: a `SummaryCache` keyed by fingerprints. -/
abbrev CSt := CacheState SKey Summary

/-- The Layer-1 prompt prefix passed by `summarize_layer1`. -/
def layer1Prompt : PyStr :=
  "请总结以下聊天记录的主要内容，包括关键话题和重要信息：".toList

/-- One message line of the Layer-1 prompt: the f-string bracketing the
time, the author name and the content. -/
def fmtMsg (m : Msg) : PyStr :=
  ['['] ++ Nat.toDigits 10 m.time ++ "] ".toList ++ m.author ++
    ": ".toList ++ m.content

/-- The newline-joined chunk body built by `_summarize_chunk`. -/
def chunkBody (msgs : List Msg) : PyStr :=
  List.intercalate ['\n'] (msgs.map fmtMsg)

/-- The full prompt `_summarize_chunk` submits: prompt prefix, blank line,
chunk body; truncated to 80% of its character length when the token check
against `model_max_tokens = 4000` fails (`int(len(content) * 0.8)` equals
`4 * len / 5` for the float arithmetic in range). -/
def summarizeInput (tm : PyStr → Nat) (msgs : List Msg) : PyStr :=
  let c := layer1Prompt ++ "\n\n".toList ++ chunkBody msgs
  if tm c ≤ 4000 then c else c.take (4 * c.length / 5)

/-- The Summary `_summarize_chunk` builds for a non-empty chunk, the
external call `ai` standing for the model response. -/
def mkSummary (ai : PyStr → PyStr) (tm : PyStr → Nat) (m0 : Msg)
    (rest : List Msg) : Summary :=
  { content := ai (summarizeInput tm (m0 :: rest)),
    rangeStart := m0.time,
    rangeEnd := ((m0 :: rest).getLast (List.cons_ne_nil m0 rest)).time,
    messageCount := (m0 :: rest).length }

/-- What `summarize_layer1` obtains for a chunk: `None` for an empty chunk
(`messages[0]` raises and the handler returns `None`), otherwise the built
Summary. -/
def chunkSummary? (ai : PyStr → PyStr) (tm : PyStr → Nat) :
    List Msg → Option Summary
  | [] => none
  | m0 :: rest => some (mkSummary ai tm m0 rest)

/-- `RecursiveSummarizer._summarize_chunk`: build the prompt, invoke the
external call (counted by the third component), wrap the response with
time-range and count bookkeeping, cache it, and return it; on an empty
chunk the `messages[0]` access raises after the call, the handler catches
it, nothing is cached, and `None` is returned. -/
def summarizeChunk (ai : PyStr → PyStr) (tm : PyStr → Nat) (st : CSt)
    (key : SKey) (msgs : List Msg) : Option Summary × CSt × Nat :=
  match msgs with
  | [] => (none, st, 1)
  | m0 :: rest =>
    let s := mkSummary ai tm m0 rest
    (some s, (cacheSet st key s).2, 1)

/-- The cache-probing loop of `summarize_layer1`: hits are appended to the
output list at once, misses become deferred tasks
(`asyncio.create_task`). -/
def layer1Probe (st : CSt) : List (List Msg) →
    List (Option Summary) × List (List Msg) × CSt
  | [] => ([], [], st)
  | c :: cs =>
    match cacheGet st (SKey.l1 c) with
    | (some v, st') =>
      let r := layer1Probe st' cs
      (some v :: r.1, r.2.1, r.2.2)
    | (none, st') =>
      let r := layer1Probe st' cs
      (r.1, c :: r.2.1, r.2.2)

/-- The `asyncio.gather` phase of `summarize_layer1`: the deferred chunk
summarizations run in creation order, threading the cache and counting one
external call each. -/
def layer1Run (ai : PyStr → PyStr) (tm : PyStr → Nat) (st : CSt) :
    List (List Msg) → List (Option Summary) × CSt × Nat
  | [] => ([], st, 0)
  | c :: cs =>
    let r := summarizeChunk ai tm st (SKey.l1 c) c
    let rr := layer1Run ai tm r.2.1 cs
    (r.1 :: rr.1, rr.2.1, r.2.2 + rr.2.2)

/-- `RecursiveSummarizer.summarize_layer1` under the event loop's
sequential semantics: the probing loop performs every `cache.get`, then the
gathered tasks run; cache-hit summaries precede task results in the output
list.  The surrounding `try/except` is unreachable (every callee catches
its own errors) and is not modelled. -/
def summarize_layer1 (ai : PyStr → PyStr) (tm : PyStr → Nat) (st : CSt)
    (chunks : List (List Msg)) : List (Option Summary) × CSt × Nat :=
  let p := layer1Probe st chunks
  let r := layer1Run ai tm p.2.2 p.2.1
  (p.1 ++ r.1, r.2.1, r.2.2)

/-- Every Layer-1 binding anywhere in either cache tier is the summary the
pipeline computes for its chunk. -/
def l1Coherent (ai : PyStr → PyStr) (tm : PyStr → Nat) (st : CSt) : Prop :=
  ∀ (c : List Msg) (v : Summary),
    ((SKey.l1 c, v) ∈ st.t1 ∨ (SKey.l1 c, v) ∈ st.t2) →
    chunkSummary? ai tm c = some v

theorem l1Coherent_get {ai : PyStr → PyStr} {tm : PyStr → Nat} {st : CSt}
    (k : SKey) (h : l1Coherent ai tm st) :
    l1Coherent ai tm (cacheGet st k).2 := by
  intro c v hmem
  rcases hmem with hmem | hmem
  · rcases mem_cacheGet_t1 hmem with h1 | h1
    · exact h c v (Or.inl h1)
    · exact h c v (Or.inr h1)
  · rw [cacheGet_t2] at hmem
    exact h c v (Or.inr hmem)

theorem l1Coherent_set {ai : PyStr → PyStr} {tm : PyStr → Nat} {st : CSt}
    {c0 : List Msg} {s : Summary} (hs : chunkSummary? ai tm c0 = some s)
    (h : l1Coherent ai tm st) :
    l1Coherent ai tm (cacheSet st (SKey.l1 c0) s).2 := by
  have hnew : ∀ (c : List Msg) (v : Summary),
      (SKey.l1 c, v) = (SKey.l1 c0, s) → chunkSummary? ai tm c = some v := by
    intro c v he
    obtain ⟨hc, hv⟩ : SKey.l1 c = SKey.l1 c0 ∧ v = s := by
      simpa [Prod.ext_iff] using he
    obtain rfl : c = c0 := by simpa using hc
    exact hv ▸ hs
  intro c v hmem
  rcases hmem with hmem | hmem
  · rcases mem_cacheSet_t1 hmem with h1 | h1
    · exact h c v (Or.inl h1)
    · exact hnew c v h1
  · rcases mem_cacheSet_t2 hmem with h1 | h1
    · exact h c v (Or.inr h1)
    · exact hnew c v h1

theorem cacheGet_l1_hit {ai : PyStr → PyStr} {tm : PyStr → Nat} {st : CSt}
    {c : List Msg} (hco : l1Coherent ai tm st)
    (hp : st.redisPresent = true) (hq : st.redisOk = true)
    (hw : ∃ w, alookup (SKey.l1 c) st.t2 = some w) :
    (cacheGet st (SKey.l1 c)).1 = chunkSummary? ai tm c := by
  unfold cacheGet
  rcases hlo : alookup (SKey.l1 c) st.t1 with _ | v
  · simp only
    rw [if_pos ⟨hp, hq⟩]
    rcases hw with ⟨w, hw⟩
    rw [hw]
    exact (hco c w (Or.inr (alookup_some_mem hw))).symm
  · exact (hco c v (Or.inl (alookup_some_mem hlo))).symm

theorem cacheSet_keeps_t2 {st : CSt} (k' k : SKey) (v : Summary)
    (h : ∃ w, alookup k' st.t2 = some w) :
    ∃ w, alookup k' ((cacheSet st k v).2).t2 = some w := by
  unfold cacheSet
  split
  · split
    · simp only
      by_cases hkk : k' = k
      · subst hkk
        exact ⟨v, alookup_aerase_append _ _ _⟩
      · rcases h with ⟨w, hw⟩
        have hmem : ((k', w) : SKey × Summary) ∈ aerase k st.t2 ++ [(k, v)] :=
          List.mem_append_left _
            (List.mem_filter.mpr ⟨alookup_some_mem hw, by simp [hkk]⟩)
        exact alookup_ex_of_mem hmem
    · exact h
  · exact h

theorem cacheSet_t2_self {st : CSt} (k : SKey) (v : Summary)
    (hp : st.redisPresent = true) (hq : st.redisOk = true) :
    alookup k ((cacheSet st k v).2).t2 = some v := by
  rw [cacheSet_t2_ok k v hp hq]
  exact alookup_aerase_append _ _ _

/-- The gather phase on all-fresh non-empty chunks: it returns exactly the
computed summaries in order, keeps the cache coherent, and leaves every
processed chunk's Layer-1 key present in Tier 2. -/
theorem layer1Run_spec (ai : PyStr → PyStr) (tm : PyStr → Nat) :
    ∀ (cs : List (List Msg)) (st : CSt),
    (∀ c ∈ cs, c ≠ []) →
    st.redisPresent = true → st.redisOk = true →
    l1Coherent ai tm st →
    (layer1Run ai tm st cs).1 = cs.map (chunkSummary? ai tm) ∧
    l1Coherent ai tm (layer1Run ai tm st cs).2.1 ∧
    ((layer1Run ai tm st cs).2.1).redisPresent = true ∧
    ((layer1Run ai tm st cs).2.1).redisOk = true ∧
    (∀ k, (∃ w, alookup k st.t2 = some w) →
      ∃ w, alookup k ((layer1Run ai tm st cs).2.1).t2 = some w) ∧
    (∀ c ∈ cs, ∃ w,
      alookup (SKey.l1 c) ((layer1Run ai tm st cs).2.1).t2 = some w) := by
  intro cs
  induction cs with
  | nil =>
    intro st _ hp hq hco
    exact ⟨rfl, hco, hp, hq, fun k h => h, by simp⟩
  | cons c rest ih =>
    intro st hne hp hq hco
    obtain ⟨m0, r, rfl⟩ : ∃ m0 r, c = m0 :: r := by
      rcases c with _ | ⟨m0, r⟩
      · exact absurd rfl (hne [] (by simp))
      · exact ⟨m0, r, rfl⟩
    have hrest_ne : ∀ x ∈ rest, x ≠ [] :=
      fun x hx => hne x (List.mem_cons_of_mem _ hx)
    have hsum : chunkSummary? ai tm (m0 :: r) =
        some (mkSummary ai tm m0 r) := rfl
    set s := mkSummary ai tm m0 r with hs
    set st' := (cacheSet st (SKey.l1 (m0 :: r)) s).2 with hst'
    have hco' : l1Coherent ai tm st' := l1Coherent_set hsum hco
    have hp' : st'.redisPresent = true := by
      rw [hst', (cacheSet_flags st _ s).1, hp]
    have hq' : st'.redisOk = true := by
      rw [hst', (cacheSet_flags st _ s).2, hq]
    have hself : alookup (SKey.l1 (m0 :: r)) st'.t2 = some s :=
      cacheSet_t2_self _ s hp hq
    obtain ⟨IH1, IH2, IH3, IH4, IH5, IH6⟩ := ih st' hrest_ne hp' hq' hco'
    have hunfold : layer1Run ai tm st ((m0 :: r) :: rest) =
        (some s :: (layer1Run ai tm st' rest).1,
         (layer1Run ai tm st' rest).2.1,
         1 + (layer1Run ai tm st' rest).2.2) := rfl
    rw [hunfold]
    refine ⟨by simp [IH1, hsum], IH2, IH3, IH4, ?_, ?_⟩
    · intro k hk
      exact IH5 k (cacheSet_keeps_t2 k _ s hk)
    · intro c' hc'
      rcases List.mem_cons.mp hc' with rfl | hc'
      · exact IH5 _ ⟨s, hself⟩
      · exact IH6 c' hc'

/-- The probing loop over uncached keys: no hits, every chunk becomes a
task, the cache is untouched. -/
theorem layer1Probe_allmiss :
    ∀ (cs : List (List Msg)) (st : CSt),
    (∀ c ∈ cs, alookup (SKey.l1 c) st.t1 = none ∧
      alookup (SKey.l1 c) st.t2 = none) →
    layer1Probe st cs = ([], cs, st) := by
  intro cs
  induction cs with
  | nil => intro st _; rfl
  | cons c rest ih =>
    intro st h
    have hmiss := cacheGet_miss (h c (by simp)).1 (h c (by simp)).2
    simp only [layer1Probe, hmiss]
    rw [ih st (fun x hx => h x (by simp [hx]))]

/-- The probing loop when every chunk's key is in Tier 2 of a coherent
cache: every chunk hits with its computed summary, and no tasks remain. -/
theorem layer1Probe_allhit (ai : PyStr → PyStr) (tm : PyStr → Nat) :
    ∀ (cs : List (List Msg)) (st : CSt),
    st.redisPresent = true → st.redisOk = true →
    l1Coherent ai tm st →
    (∀ c ∈ cs, ∃ w, alookup (SKey.l1 c) st.t2 = some w) →
    (layer1Probe st cs).1 = cs.map (chunkSummary? ai tm) ∧
    (layer1Probe st cs).2.1 = [] := by
  intro cs
  induction cs with
  | nil => intro st _ _ _ _; exact ⟨rfl, rfl⟩
  | cons c rest ih =>
    intro st hp hq hco hw
    obtain ⟨w, hwl⟩ := hw c (by simp)
    have hcw : chunkSummary? ai tm c = some w :=
      hco c w (Or.inr (alookup_some_mem hwl))
    have hres : (cacheGet st (SKey.l1 c)).1 = some w := by
      rw [cacheGet_l1_hit hco hp hq ⟨w, hwl⟩, hcw]
    rcases hget : cacheGet st (SKey.l1 c) with ⟨res, st2⟩
    have hres2 : res = some w := by rw [hget] at hres; exact hres
    subst hres2
    have hst2 : st2 = (cacheGet st (SKey.l1 c)).2 := by rw [hget]
    have hp2 : st2.redisPresent = true := by
      rw [hst2, (cacheGet_flags st _).1, hp]
    have hq2 : st2.redisOk = true := by
      rw [hst2, (cacheGet_flags st _).2, hq]
    have hco2 : l1Coherent ai tm st2 := hst2 ▸ l1Coherent_get _ hco
    have hw2 : ∀ x ∈ rest, ∃ v, alookup (SKey.l1 x) st2.t2 = some v := by
      intro x hx
      rw [hst2, cacheGet_t2]
      exact hw x (by simp [hx])
    obtain ⟨IH1, IH2⟩ := ih st2 hp2 hq2 hco2 hw2
    simp only [layer1Probe, hget]
    exact ⟨by simp [IH1, hcw], IH2⟩

/-- C3: starting from an empty cache with a live Tier 2, running Layer-1
summarization twice over the same list of non-empty chunks makes zero
external calls in the second run and returns the same summary list. -/
theorem summarize_layer1_idempotent (ai : PyStr → PyStr) (tm : PyStr → Nat)
    (chunks : List (List Msg)) (cap : Nat)
    (hne : ∀ c ∈ chunks, c ≠ []) :
    (summarize_layer1 ai tm
        (summarize_layer1 ai tm ⟨cap, [], [], true, true⟩ chunks).2.1
        chunks).2.2 = 0 ∧
    (summarize_layer1 ai tm
        (summarize_layer1 ai tm ⟨cap, [], [], true, true⟩ chunks).2.1
        chunks).1 =
      (summarize_layer1 ai tm ⟨cap, [], [], true, true⟩ chunks).1 := by
  set st0 : CSt := ⟨cap, [], [], true, true⟩ with hst0
  have hmiss : layer1Probe st0 chunks = ([], chunks, st0) :=
    layer1Probe_allmiss chunks st0 (fun c _ => ⟨rfl, rfl⟩)
  have hco0 : l1Coherent ai tm st0 := by
    intro c v hmem
    rcases hmem with hmem | hmem <;> simp [hst0] at hmem
  obtain ⟨R1, R2, R3, R4, R5, R6⟩ :=
    layer1Run_spec ai tm chunks st0 hne rfl rfl hco0
  have hrun1 : summarize_layer1 ai tm st0 chunks =
      ((layer1Run ai tm st0 chunks).1,
       (layer1Run ai tm st0 chunks).2.1,
       (layer1Run ai tm st0 chunks).2.2) := by
    unfold summarize_layer1
    rw [hmiss]
    rfl
  set st1 := (layer1Run ai tm st0 chunks).2.1 with hst1
  have hhit := layer1Probe_allhit ai tm chunks st1 R3 R4 R2 R6
  have hout1 : (summarize_layer1 ai tm st0 chunks).2.1 = st1 := by
    rw [hrun1]
  rw [hout1]
  have hrun2 : summarize_layer1 ai tm st1 chunks =
      ((layer1Probe st1 chunks).1 ++ (layer1Run ai tm
        (layer1Probe st1 chunks).2.2 (layer1Probe st1 chunks).2.1).1,
       (layer1Run ai tm (layer1Probe st1 chunks).2.2
         (layer1Probe st1 chunks).2.1).2.1,
       (layer1Run ai tm (layer1Probe st1 chunks).2.2
         (layer1Probe st1 chunks).2.1).2.2) := rfl
  rw [hrun2, hhit.2]
  constructor
  · rfl
  · rw [hrun1]
    simp only [layer1Run]
    rw [hhit.1, R1]
    simp

/-- Witness for C3 at a concrete chunk list, estimator and model. -/
theorem summarize_layer1_idempotent_witness :
    (summarize_layer1 (fun c => c) estimate_chinese_tokens
        (summarize_layer1 (fun c => c) estimate_chinese_tokens
          ⟨4, [], [], true, true⟩ [[⟨"hi".toList, 1, [], 0⟩]]).2.1
        [[⟨"hi".toList, 1, [], 0⟩]]).2.2 = 0 ∧
    (summarize_layer1 (fun c => c) estimate_chinese_tokens
        (summarize_layer1 (fun c => c) estimate_chinese_tokens
          ⟨4, [], [], true, true⟩ [[⟨"hi".toList, 1, [], 0⟩]]).2.1
        [[⟨"hi".toList, 1, [], 0⟩]]).1 =
      (summarize_layer1 (fun c => c) estimate_chinese_tokens
        ⟨4, [], [], true, true⟩ [[⟨"hi".toList, 1, [], 0⟩]]).1 :=
  summarize_layer1_idempotent (fun c => c) estimate_chinese_tokens
    [[⟨"hi".toList, 1, [], 0⟩]] 4 (by decide)

/-- One per-summary block of the Layer-2 merge prompt: time range, message
count and content, exactly as `_merge_topic_summaries` formats them. -/
def mergePiece (s : Summary) : PyStr :=
  "时间范围：".toList ++ Nat.toDigits 10 s.rangeStart ++ " - ".toList ++
    Nat.toDigits 10 s.rangeEnd ++ "\n消息数量：".toList ++
    Nat.toDigits 10 s.messageCount ++ "\n内容：".toList ++ s.content

/-- The full Layer-2 merge prompt: the blocks joined by blank lines. -/
def mergeInput (sums : List Summary) : PyStr :=
  List.intercalate "\n\n".toList (sums.map mergePiece)

/-- The merged Summary `_merge_topic_summaries` builds for a non-empty
group: model text, the first summary's range start, the last summary's
range end, and the summed message count. -/
def mkMerged (ai : PyStr → PyStr) (s0 : Summary) (rest : List Summary) :
    Summary :=
  { content := ai (mergeInput (s0 :: rest)),
    rangeStart := s0.rangeStart,
    rangeEnd := ((s0 :: rest).getLast (List.cons_ne_nil s0 rest)).rangeEnd,
    messageCount := ((s0 :: rest).map Summary.messageCount).sum }

/-- `RecursiveSummarizer._merge_topic_summaries`: cache hit returns the
stored merge with no external call; on a miss the external call runs
(counted), the merged Summary is cached and returned; an empty group makes
`summaries[0]` raise after the call, so `None` comes back with nothing
cached. -/
def mergeTopicSummaries (ai : PyStr → PyStr) (st : CSt)
    (sums : List Summary) : Option Summary × CSt × Nat :=
  match cacheGet st (SKey.l2 sums) with
  | (some v, st') => (some v, st', 0)
  | (none, st') =>
    match sums with
    | [] => (none, st', 1)
    | s0 :: rest =>
      let m := mkMerged ai s0 rest
      (some m, (cacheSet st' (SKey.l2 sums) m).2, 1)

/-- The loop of `summarize_layer2`: greedy token-bounded grouping against
`model_max_tokens // 2 = 2000`, flushing the running group through
`_merge_topic_summaries` whenever the next summary would overflow it, and
once more at the end; `tmS` is the estimator applied to `str(summary)`.
Arguments: remaining summaries, cache, accumulated topic summaries,
running group, running token count. -/
def layer2Aux (ai : PyStr → PyStr) (tmS : Summary → Nat) :
    List Summary → CSt → List Summary → List Summary → Nat →
    List Summary × CSt × Nat
  | [], st, acc, cur, _ =>
    if cur ≠ [] then
      match mergeTopicSummaries ai st cur with
      | (some m, st', n) => (acc ++ [m], st', n)
      | (none, st', n) => (acc, st', n)
    else (acc, st, 0)
  | s :: rest, st, acc, cur, curTok =>
    let t := tmS s
    if curTok + t > 2000 then
      if cur ≠ [] then
        match mergeTopicSummaries ai st cur with
        | (some m, st', n) =>
          let r := layer2Aux ai tmS rest st' (acc ++ [m]) [s] t
          (r.1, r.2.1, n + r.2.2)
        | (none, st', n) =>
          let r := layer2Aux ai tmS rest st' acc [s] t
          (r.1, r.2.1, n + r.2.2)
      else layer2Aux ai tmS rest st acc [s] t
    else layer2Aux ai tmS rest st acc (cur ++ [s]) (curTok + t)

/-- `RecursiveSummarizer.summarize_layer2`; the surrounding `try/except`
is unreachable (all callees catch their own errors) and is not modelled. -/
def summarize_layer2 (ai : PyStr → PyStr) (tmS : Summary → Nat) (st : CSt)
    (sums : List Summary) : List Summary × CSt × Nat :=
  layer2Aux ai tmS sums st [] [] 0

/-- C7 amended: a group holding exactly one Layer-1 summary is *not*
passed through: Layer 2 still routes it through `_merge_topic_summaries`,
which on a cache miss performs one external merge call and returns the
rebuilt merged summary (model text plus recomputed bookkeeping) in place
of the original. -/
theorem summarize_layer2_singleton_merged (ai : PyStr → PyStr)
    (tmS : Summary → Nat) (s : Summary) (cap : Nat) (p q : Bool) :
    (summarize_layer2 ai tmS ⟨cap, [], [], p, q⟩ [s]).1 =
      [mkMerged ai s []] ∧
    (summarize_layer2 ai tmS ⟨cap, [], [], p, q⟩ [s]).2.2 = 1 := by
  have hget : cacheGet (⟨cap, [], [], p, q⟩ : CSt) (SKey.l2 [s]) =
      (none, (⟨cap, [], [], p, q⟩ : CSt)) := cacheGet_miss rfl rfl
  unfold summarize_layer2
  simp only [layer2Aux]
  split <;>
  · try simp only [List.nil_append]
    rw [if_pos (by simp : ([s] : List Summary) ≠ [])]
    simp only [mergeTopicSummaries, hget]
    simp

/-- C7 counterexample: a single Layer-1 summary forms a singleton group,
yet Layer 2 performs one external merge call for it and replaces it by the
rebuilt merged summary, so it does not pass through unchanged. -/
theorem summarize_layer2_singleton_not_passthrough :
    (summarize_layer2 (fun _ => "这是一个合并后的主题总结".toList) (fun _ => 0)
        ⟨10, [], [], true, true⟩ [⟨"原文".toList, 5, 9, 3⟩]).2.2 = 1 ∧
    (summarize_layer2 (fun _ => "这是一个合并后的主题总结".toList) (fun _ => 0)
        ⟨10, [], [], true, true⟩ [⟨"原文".toList, 5, 9, 3⟩]).1 ≠
      [⟨"原文".toList, 5, 9, 3⟩] := by
  constructor <;> decide

end WeiboChatlog
